import Mathlib

/-!
Verification of the password-game rule engine (src/app/page.tsx and
src/schema/password-schema.tsx) against its specification.

The input string is modelled as a `List Char`.  JavaScript regular
expressions over these mostly-ASCII patterns are translated into explicit
character scans; JS `number` arithmetic on the small integers involved is
modelled exactly with `Nat`/`Int`.
-/

namespace PasswordGame

/-- JS regex `\d`: the ASCII digits 0-9. -/
def isDigitChar (c : Char) : Bool := '0' ≤ c && c ≤ '9'

/-- JS regex `[A-Z]`: uppercase ASCII letters. -/
def isUpperAscii (c : Char) : Bool := 'A' ≤ c && c ≤ 'Z'

/-- Lowercase ASCII letters, the class `[a-z]` used by rule 6's cleaner. -/
def isLowerAlpha (c : Char) : Bool := 'a' ≤ c && c ≤ 'z'

/-- JS regex `\w`: letters, digits and underscore (used by `\b`). -/
def isWordChar (c : Char) : Bool :=
  isDigitChar c || isUpperAscii c || isLowerAlpha c || c == '_'

/-- The line terminators that the JS regex `.` (without the `s` flag) does
not match: LF, CR, LINE SEPARATOR, PARAGRAPH SEPARATOR. -/
def isLineTerm (c : Char) : Bool :=
  c == '\n' || c == '\r' || c == '\u2028' || c == '\u2029'

/-- JS regex `\s`: the whitespace and line-terminator characters. -/
def isSpaceJS (c : Char) : Bool :=
  c == ' ' || c == '\t' || c == '\n' || c == '\u000B' || c == '\u000C' ||
  c == '\r' || c == '\u00A0' || c == '\u1680' ||
  ('\u2000' ≤ c && c ≤ '\u200A') ||
  c == '\u2028' || c == '\u2029' || c == '\u202F' || c == '\u205F' ||
  c == '\u3000' || c == '\uFEFF'

/-- The fixed special-character set of rule 4. -/
def specialChars : List Char := ['!', '@', '#', '$', '%', '^', '&', '*', '(', ')']

/-- The exact decimal value of a digit string.  JS `parseInt` computes
this value and then rounds it to a binary64 number; the rounding is
applied by `parseIntJs` where rule 9 calls `parseInt`. -/
def digitsToNat (d : List Char) : Nat :=
  d.foldl (fun n c => n * 10 + (c.toNat - 48)) 0

/-- Rule 1 (page.tsx line 36): `value.length >= 5`. -/
def rule1Valid (v : List Char) : Bool := decide (5 ≤ v.length)

/-- Rule 2 (page.tsx line 41): `/[0-9]/.test(value)`. -/
def rule2Valid (v : List Char) : Bool := v.any isDigitChar

/-- Rule 3 (page.tsx line 46): `/[A-Z]/.test(value)`. -/
def rule3Valid (v : List Char) : Bool := v.any isUpperAscii

/-- Rule 4 (page.tsx line 52): `/[!@#$%^&*()]/.test(value)`. -/
def rule4Valid (v : List Char) : Bool := v.any (fun c => specialChars.contains c)

/-- The scan behind `/(.)\1{2}/`: some position holds three equal
consecutive characters whose first is matched by `.` (so not a line
terminator); the backreferences then require literal equality. -/
def hasTripleRun : List Char → Bool
  | [] => false
  | [_] => false
  | [_, _] => false
  | c1 :: c2 :: c3 :: rest =>
    (!isLineTerm c1 && c1 == c2 && c1 == c3) || hasTripleRun (c2 :: c3 :: rest)

/-- Rule 5 (page.tsx line 58): `!/(.)\1{2}/.test(value)`. -/
def rule5Valid (v : List Char) : Bool := !hasTripleRun v

/-- JS `String.prototype.split(/\s+/)`, fuelled by the input length: each
maximal whitespace run is a separator, and the pieces between separators
(including a leading or trailing empty piece) are returned in order. -/
def splitWsAux : Nat → List Char → List (List Char)
  | 0, _ => []
  | fuel + 1, s =>
    let rest := s.dropWhile (fun c => !isSpaceJS c)
    if rest.isEmpty then [s.takeWhile (fun c => !isSpaceJS c)]
    else s.takeWhile (fun c => !isSpaceJS c) :: splitWsAux fuel (rest.dropWhile isSpaceJS)

/-- `value.split(/\s+/)` from rule 6 (page.tsx line 65). -/
def splitWsJS (s : List Char) : List (List Char) := splitWsAux (s.length + 1) s

/-- The `[a-z]` residue a character contributes to
`word.toLowerCase().replace(/[^a-z]/g, '')`: its Unicode default
lowercase mapping, restricted to the letters the `[^a-z]` filter keeps.
Besides `a-z` (kept as is) and `A-Z` (mapped down by 32), exactly two
code points lowercase into ASCII: U+212A KELVIN SIGN maps to `k`, and
U+0130 LATIN CAPITAL LETTER I WITH DOT ABOVE maps to `i` followed by
U+0307 (the combining dot, which the filter removes).  Every other code
point's lowercase contains no `a-z` character and contributes nothing. -/
def lowerAsciiOf (c : Char) : Option Char :=
  if 'a' ≤ c && c ≤ 'z' then some c
  else if 'A' ≤ c && c ≤ 'Z' then some (Char.ofNat (c.toNat + 32))
  else if c == '\u212A' then some 'k'
  else if c == '\u0130' then some 'i'
  else none

/-- Rule 6's word cleaner (page.tsx line 67):
`word.toLowerCase().replace(/[^a-z]/g, '')`, as the per-character `[a-z]`
residue of the JS lowercasing. -/
def cleanWord (w : List Char) : List Char := w.filterMap lowerAsciiOf

/-- Rule 6's per-word test (page.tsx lines 68-71): the cleaned word has
length at least 3 and equals its own reverse. -/
def palWordOK (w : List Char) : Bool :=
  let cleaned := cleanWord w
  decide (3 ≤ cleaned.length) && cleaned == cleaned.reverse

/-- Rule 6 (page.tsx lines 64-73): some whitespace-split word is a cleaned
palindrome of length at least 3. -/
def rule6Valid (v : List Char) : Bool := (splitWsJS v).any palWordOK

/-- Whether the position before/after a matched digit or letter is a word
boundary: `\b` next to a word character holds at the ends of the string
and next to a non-word character. -/
def boundaryOK : Option Char → Bool
  | none => true
  | some c => !isWordChar c

/-- The alternation `19\d{2}|20[0-2]\d` of rule 7's regex on four
consecutive characters. -/
def yearPat (c1 c2 c3 c4 : Char) : Bool :=
  (c1 == '1' && c2 == '9' && isDigitChar c3 && isDigitChar c4) ||
  (c1 == '2' && c2 == '0' && (c3 == '0' || c3 == '1' || c3 == '2') && isDigitChar c4)

/-- The scan behind `/\b(19\d{2}|20[0-2]\d)\b/`: try each start position in
turn, carrying the character before the current position for the left
word-boundary test. -/
def rule7Aux : Option Char → List Char → Bool
  | prev, c1 :: c2 :: c3 :: c4 :: rest =>
    (boundaryOK prev && yearPat c1 c2 c3 c4 && boundaryOK rest.head?) ||
      rule7Aux (some c1) (c2 :: c3 :: c4 :: rest)
  | _, _ => false

/-- Rule 7 (page.tsx line 78): `/\b(19\d{2}|20[0-2]\d)\b/.test(value)`. -/
def rule7Valid (v : List Char) : Bool := rule7Aux none v

/-- Case-insensitive match of a lowercase ASCII pattern against a prefix of
the text, as the `i` flag gives for these patterns. -/
def matchCI : List Char → List Char → Bool
  | [], _ => true
  | _ :: _, [] => false
  | p :: ps, t :: ts => (Char.toLower t == Char.toLower p) && matchCI ps ts

/-- The pattern `w` matches (case-insensitively) at offset `i` of `s`. -/
def tokenAt (s : List Char) (i : Nat) (w : List Char) : Bool := matchCI w (s.drop i)

/-- The character just before offset `i`, if any. -/
def charBefore (s : List Char) (i : Nat) : Option Char :=
  if i = 0 then none else s.get? (i - 1)

/-- A `\b`-delimited, case-insensitive occurrence of the word `w` at
offset `i` of `s`. -/
def wordAt (s : List Char) (i : Nat) (w : List Char) : Bool :=
  tokenAt s i w && boundaryOK (charBefore s i) && boundaryOK (s.get? (i + w.length))

/-- The segment of `s` from offset `a` (inclusive) to `b` (exclusive)
contains no line terminator, so the JS `.` can cross it. -/
def noTermSeg (s : List Char) (a b : Nat) : Bool :=
  ((s.drop a).take (b - a)).all (fun c => !isLineTerm c)

/-- The segment of `s` from offset `a` to `b` is all `\s` characters. -/
def allWsSeg (s : List Char) (a b : Nat) : Bool :=
  ((s.drop a).take (b - a)).all isSpaceJS

/-- One couplet regex `\b(w1|w1')\b.*\b(w2|w2')\b` of rule 8: a bounded
occurrence of a first word, then (across a terminator-free gap, for `.*`)
a later bounded occurrence of a second word. -/
def coupletHit (s : List Char) (firsts seconds : List (List Char)) : Bool :=
  (List.range (s.length + 1)).any fun i =>
    firsts.any fun w1 =>
      wordAt s i w1 &&
      (List.range (s.length + 1)).any fun j =>
        decide (i + w1.length ≤ j) && seconds.any fun w2 =>
          wordAt s j w2 && noTermSeg s (i + w1.length) j

/-- Rule 8 (page.tsx lines 84-91): one of the three rhyme-couplet regexes
matches. -/
def rule8Valid (v : List Char) : Bool :=
  coupletHit v ["love".toList, "dove".toList] ["above".toList, "move".toList] ||
  coupletHit v ["heart".toList, "smart".toList] ["art".toList, "part".toList] ||
  coupletHit v ["light".toList, "bright".toList] ["height".toList, "might".toList]

/-- The four numbered groups and the span of rule 9's regex match
`(\d+)\s*([+\-*/])\s*(\d+)\s*=\s*(\d+)`.  The fields `a`, `b`, `r` hold
the exact decimal values of the digit groups; `parseInt`'s binary64
rounding is applied where the arithmetic check uses them. -/
structure EqMatch where
  a : Nat
  op : Char
  b : Nat
  r : Nat
  matched : List Char
  rest : List Char
deriving DecidableEq

/-- The operator class `[+\-*/]`. -/
def isOpChar (c : Char) : Bool := c == '+' || c == '-' || c == '*' || c == '/'

/-- Attempt rule 9's regex at the start of `s`.  Each `\d+`/`\s*` takes its
maximal run; since the digit, whitespace and operator classes are
disjoint, backtracking can never extend a failed maximal-munch attempt, so
this is the regex's match at this position. -/
def parseEq (s : List Char) : Option EqMatch :=
  let d1 := s.takeWhile isDigitChar
  let r1 := s.dropWhile isDigitChar
  if d1.isEmpty then none else
  let w1 := r1.takeWhile isSpaceJS
  match r1.dropWhile isSpaceJS with
  | [] => none
  | op :: r3 =>
    if isOpChar op then
      let w2 := r3.takeWhile isSpaceJS
      let r4 := r3.dropWhile isSpaceJS
      let d2 := r4.takeWhile isDigitChar
      let r5 := r4.dropWhile isDigitChar
      if d2.isEmpty then none else
      let w3 := r5.takeWhile isSpaceJS
      match r5.dropWhile isSpaceJS with
      | [] => none
      | eqc :: r7 =>
        if eqc == '=' then
          let w4 := r7.takeWhile isSpaceJS
          let r8 := r7.dropWhile isSpaceJS
          let d3 := r8.takeWhile isDigitChar
          let r9 := r8.dropWhile isDigitChar
          if d3.isEmpty then none else
          some ⟨digitsToNat d1, op, digitsToNat d2, digitsToNat d3,
                d1 ++ w1 ++ op :: (w2 ++ d2 ++ w3 ++ '=' :: (w4 ++ d3)), r9⟩
        else none
    else none

/-- `value.match(regex)` tries each start position from the left and keeps
the first success; the accumulator records the (reversed) characters
before the current position so the leftmost match's position is returned
with it. -/
def findEqAux : List Char → List Char → Option (List Char × EqMatch)
  | pre, s =>
    match parseEq s with
    | some m => some (pre.reverse, m)
    | none =>
      match s with
      | [] => none
      | c :: t => findEqAux (c :: pre) t

/-- The leftmost match of rule 9's equation regex in `s`, with the text
before it. -/
def findEq (s : List Char) : Option (List Char × EqMatch) := findEqAux [] s

/-! ### The JS number model

Rule 9 computes with JS numbers (IEEE 754 binary64): `parseInt` rounds
the exact decimal value of each match group to the nearest double, the
four operators round their exact result to the nearest double (ties to
even, overflow to Infinity), and `===` compares the resulting values.
A double is modelled as NaN, a signed infinity, or an exact value
`m * 2^e`; rounding is computed exactly with `Nat`/`Int` arithmetic. -/

/-- A JS number as rule 9 observes it. -/
inductive JsNum where
  | nan : JsNum
  | posInf : JsNum
  | negInf : JsNum
  | finite : Int → Int → JsNum
deriving DecidableEq

/-- IEEE `===`: NaN equals nothing, infinities equal themselves, finite
values compare as the exact rationals `m * 2^e` (so `-0 === 0`). -/
def jsEq : JsNum → JsNum → Bool
  | .posInf, .posInf => true
  | .negInf, .negInf => true
  | .finite m1 e1, .finite m2 e2 =>
    if e1 ≤ e2 then m1 == m2 * ((2 : Int) ^ (e2 - e1).toNat)
    else m1 * ((2 : Int) ^ (e1 - e2).toNat) == m2
  | _, _ => false

/-- Number of binary digits of `n`, with explicit fuel (the recursion
halves `n`, so any fuel of at least `n` steps suffices). -/
def bitlenAux : Nat → Nat → Nat
  | 0, _ => 0
  | fuel + 1, n => if n = 0 then 0 else bitlenAux fuel (n / 2) + 1

/-- Number of binary digits of `n`: 0 for 0, and `⌊log2 n⌋ + 1` else. -/
def bitlen (n : Nat) : Nat := bitlenAux n n

/-- The fraction `(p / q) / 2^e` as a pair of naturals. -/
def scaledPair (p q : Nat) (e : Int) : Nat × Nat :=
  if 0 ≤ e then (p, q * 2 ^ e.toNat) else (p * 2 ^ (-e).toNat, q)

/-- Round the rational `p / q` (`q > 0`) to the nearest binary64 value:
pick the exponent `e` placing the quotient in `[2^52, 2^53)`, round the
53-bit mantissa to nearest with ties to even, quantize at `2^-1074` in
the subnormal range, and overflow to `+Infinity` at `2^1024` (since the
rounded mantissa is at most `2^53`, the value `m * 2^e` reaches `2^1024`
exactly when `970 ≤ e` and `2^(1024-e) ≤ m`). -/
def roundPosRat (p q : Nat) : JsNum :=
  let e0 : Int := (bitlen p : Int) - (bitlen q : Int) - 53
  let n0 := scaledPair p q e0
  let e1 : Int := if 2 ^ 53 ≤ n0.1 / n0.2 then e0 + 1 else e0
  let e : Int := if e1 < -1074 then -1074 else e1
  let n := scaledPair p q e
  let m0 := n.1 / n.2
  let rem := n.1 % n.2
  let m : Nat :=
    if n.2 < 2 * rem then m0 + 1
    else if 2 * rem < n.2 then m0
    else if m0 % 2 = 0 then m0 else m0 + 1
  if 970 ≤ e ∧ 2 ^ (1024 - e.toNat) ≤ m then JsNum.posInf
  else JsNum.finite (m : Int) e

/-- Round the value `num * 2^k` to binary64, with the sign restored. -/
def roundScaled (num : Int) (k : Int) : JsNum :=
  if num = 0 then JsNum.finite 0 0
  else
    let mag := if 0 ≤ k then roundPosRat (num.natAbs * 2 ^ k.toNat) 1
      else roundPosRat num.natAbs (2 ^ (-k).toNat)
    if 0 ≤ num then mag
    else match mag with
      | JsNum.posInf => JsNum.negInf
      | JsNum.finite m e => JsNum.finite (-m) e
      | x => x

/-- Round the value `(p / q) * 2^k` (`p, q > 0`) to binary64. -/
def roundRatScaled (p q : Nat) (k : Int) : JsNum :=
  if 0 ≤ k then roundPosRat (p * 2 ^ k.toNat) q
  else roundPosRat p (q * 2 ^ (-k).toNat)

/-- JS `parseInt` on an all-digit match group of exact decimal value `n`:
integers below `2^53` are exact, larger ones round to the nearest double
and overflow to `Infinity`. -/
def parseIntJs (n : Nat) : JsNum :=
  if n < 2 ^ 53 then JsNum.finite (n : Int) 0 else roundScaled (n : Int) 0

/-- IEEE negation. -/
def jsNeg : JsNum → JsNum
  | .nan => .nan
  | .posInf => .negInf
  | .negInf => .posInf
  | .finite m e => .finite (-m) e

/-- IEEE addition: the exact sum of two finite values, rounded once;
opposite infinities give NaN. -/
def jsAdd : JsNum → JsNum → JsNum
  | .nan, _ => .nan
  | _, .nan => .nan
  | .posInf, .negInf => .nan
  | .negInf, .posInf => .nan
  | .posInf, _ => .posInf
  | _, .posInf => .posInf
  | .negInf, _ => .negInf
  | _, .negInf => .negInf
  | .finite m1 e1, .finite m2 e2 =>
    if e1 ≤ e2 then roundScaled (m1 + m2 * ((2 : Int) ^ (e2 - e1).toNat)) e1
    else roundScaled (m1 * ((2 : Int) ^ (e1 - e2).toNat) + m2) e2

/-- IEEE subtraction: `a - b = a + (-b)`. -/
def jsSub (a b : JsNum) : JsNum := jsAdd a (jsNeg b)

/-- IEEE multiplication: the exact product rounded once; zero times an
infinity gives NaN. -/
def jsMul : JsNum → JsNum → JsNum
  | .nan, _ => .nan
  | _, .nan => .nan
  | .posInf, .posInf => .posInf
  | .posInf, .negInf => .negInf
  | .negInf, .posInf => .negInf
  | .negInf, .negInf => .posInf
  | .posInf, .finite m _ => if m = 0 then .nan else if 0 < m then .posInf else .negInf
  | .finite m _, .posInf => if m = 0 then .nan else if 0 < m then .posInf else .negInf
  | .negInf, .finite m _ => if m = 0 then .nan else if 0 < m then .negInf else .posInf
  | .finite m _, .negInf => if m = 0 then .nan else if 0 < m then .negInf else .posInf
  | .finite m1 e1, .finite m2 e2 => roundScaled (m1 * m2) (e1 + e2)

/-- IEEE division: the exact quotient rounded once; `x / 0` is a signed
infinity for `x ≠ 0` and NaN for `x = 0`; a finite value over an infinity
is zero; infinity over infinity is NaN. -/
def jsDiv : JsNum → JsNum → JsNum
  | .nan, _ => .nan
  | _, .nan => .nan
  | .posInf, .posInf => .nan
  | .posInf, .negInf => .nan
  | .negInf, .posInf => .nan
  | .negInf, .negInf => .nan
  | .posInf, .finite m _ => if 0 ≤ m then .posInf else .negInf
  | .negInf, .finite m _ => if 0 ≤ m then .negInf else .posInf
  | .finite _ _, .posInf => .finite 0 0
  | .finite _ _, .negInf => .finite 0 0
  | .finite m1 e1, .finite m2 e2 =>
    if m2 = 0 then
      if m1 = 0 then .nan else if 0 < m1 then .posInf else .negInf
    else if m1 = 0 then .finite 0 0
    else
      let mag := roundRatScaled m1.natAbs m2.natAbs (e1 - e2)
      if (0 < m1) = (0 < m2) then mag else jsNeg mag

/-- The `switch (op)` of rule 9 (page.tsx lines 103-114):
`parseInt(a) <op> parseInt(b) === parseInt(result)` computed with JS
binary64 numbers — `parseInt` rounds each exact group value, the operator
rounds its exact result, and `===` compares the doubles. -/
def checkOp (a : Nat) (op : Char) (b r : Nat) : Bool :=
  if op == '+' then jsEq (jsAdd (parseIntJs a) (parseIntJs b)) (parseIntJs r)
  else if op == '-' then jsEq (jsSub (parseIntJs a) (parseIntJs b)) (parseIntJs r)
  else if op == '*' then jsEq (jsMul (parseIntJs a) (parseIntJs b)) (parseIntJs r)
  else if op == '/' then jsEq (jsDiv (parseIntJs a) (parseIntJs b)) (parseIntJs r)
  else false

/-- Rule 9 (page.tsx lines 97-118): match the equation regex and check the
arithmetic.  The `try`/`catch` wrapper's error branch is unreachable: the
match groups are all-digit strings so `parseInt` succeeds, and JS number
division never throws; a missing match returns `false` directly. -/
def rule9Valid (v : List Char) : Bool :=
  match findEq v with
  | none => false
  | some (_, m) => checkOp m.a m.op m.b m.r

/-- One historical-reference regex `name.*achievement` of rule 10 (no word
boundaries): the name matches somewhere, and the achievement matches at or
after its end, across a terminator-free gap. -/
def seqHit (s : List Char) (w1 w2 : List Char) : Bool :=
  (List.range (s.length + 1)).any fun i =>
    tokenAt s i w1 &&
    (List.range (s.length + 1)).any fun j =>
      decide (i + w1.length ≤ j) && tokenAt s j w2 && noTermSeg s (i + w1.length) j

/-- The `marie\s*curie.*radioactivity` regex of rule 10: `marie`, an
all-whitespace gap, `curie`, then `radioactivity` across a
terminator-free gap. -/
def marieHit (s : List Char) : Bool :=
  (List.range (s.length + 1)).any fun i =>
    tokenAt s i ("marie".toList) &&
    (List.range (s.length + 1)).any fun k =>
      decide (i + 5 ≤ k) && allWsSeg s (i + 5) k && tokenAt s k ("curie".toList) &&
      (List.range (s.length + 1)).any fun j =>
        decide (k + 5 ≤ j) && noTermSeg s (k + 5) j && tokenAt s j ("radioactivity".toList)

/-- Rule 10 (page.tsx lines 124-132): one of the four historical-reference
regexes matches. -/
def rule10Valid (v : List Char) : Bool :=
  seqHit v ("einstein".toList) ("relativity".toList) ||
  seqHit v ("newton".toList) ("gravity".toList) ||
  marieHit v ||
  seqHit v ("tesla".toList) ("electricity".toList)

/-- A rule of the rule set: stable id, display text, and pure validator
(page.tsx lines 23-27). -/
structure Rule where
  id : Nat
  description : String
  validator : List Char → Bool

/-- The ten-rule set of page.tsx lines 32-134 (identical in the ten-rule
variant of src/schema/password-schema.tsx). -/
def rules10 : List Rule :=
  [⟨1, "Your password must be at least 5 characters.", rule1Valid⟩,
   ⟨2, "Your password must include a number.", rule2Valid⟩,
   ⟨3, "Your password must include an uppercase letter", rule3Valid⟩,
   ⟨4, "Your password must include a special character (!@#$%^&*())", rule4Valid⟩,
   ⟨5, "Your password cannot have 3 consecutive repeated characters", rule5Valid⟩,
   ⟨6, "Your password must contain a palindrome word (min 3 letters)", rule6Valid⟩,
   ⟨7, "Your password must include a year between 1900 and 2024", rule7Valid⟩,
   ⟨8, "Your password must include lyrics that form a complete rhyming couplet", rule8Valid⟩,
   ⟨9, "Your password must contain a mathematical equation that resolves to an integer", rule9Valid⟩,
   ⟨10, "Your password must reference a famous historical figure and their significant achievement", rule10Valid⟩]

/-- The rule set's public contract: look the rule up by id and apply its
validator; an id outside the set yields `false`. -/
def evaluate (ruleId : Nat) (input : List Char) : Bool :=
  match rules10.find? (fun r => r.id == ruleId) with
  | some r => r.validator input
  | none => false

/-- The reveal engine's update (page.tsx lines 146-175, updateVisibleRules):
empty input resets to the empty set; a first non-empty input reveals rule
1; otherwise, when the last visible rule's validator passes and the next
id is in range and not yet visible, the next id is appended. -/
def updateVisibleRules (password : List Char) (prev : List Nat) : List Nat :=
  if password.isEmpty then []
  else
    match prev with
    | [] => [1]
    | p :: ps =>
      let lastVisible := (p :: ps).getLast (List.cons_ne_nil p ps)
      match rules10.find? (fun r => r.id == lastVisible) with
      | some currentRule =>
        if currentRule.validator password then
          if lastVisible + 1 ≤ rules10.length ∧ (p :: ps).contains (lastVisible + 1) = false then
            (p :: ps) ++ [lastVisible + 1]
          else p :: ps
        else p :: ps
      | none => p :: ps

/-- The passing group (password-schema.tsx lines 181-183, fulfilledRules):
visible rules whose validator passes, in rule-set order. -/
def fulfilledRules (visible : List Nat) (password : List Char) : List Rule :=
  rules10.filter (fun rule => visible.contains rule.id && rule.validator password)

/-- The failing group (password-schema.tsx lines 184-186, unfulfilledRules):
visible rules whose validator fails, in rule-set order. -/
def unfulfilledRules (visible : List Nat) (password : List Char) : List Rule :=
  rules10.filter (fun rule => visible.contains rule.id && !rule.validator password)

/-- The visible-id states reachable from the initial empty state through
update calls. -/
inductive ReachableVisible : List Nat → Prop
  | init : ReachableVisible []
  | step (input : List Char) (prev : List Nat) :
      ReachableVisible prev → ReachableVisible (updateVisibleRules input prev)

/-! ## Specification-side definitions

These follow the specification's words, to be compared with the
definitions translated from the source. -/

/-- The claim's "maximum previously visible id". -/
def specMaxId (l : List Nat) : Nat := l.foldr max 0

/-- Words of the specification: the maximal nonempty whitespace-free runs,
fuelled by the input length. -/
def wordsAux : Nat → List Char → List (List Char)
  | 0, _ => []
  | fuel + 1, s =>
    let s1 := s.dropWhile isSpaceJS
    if s1.isEmpty then []
    else s1.takeWhile (fun c => !isSpaceJS c) :: wordsAux fuel (s1.dropWhile (fun c => !isSpaceJS c))

/-- The whitespace-delimited words of a string, per the specification. -/
def wordsOf (s : List Char) : List (List Char) := wordsAux (s.length + 1) s

/-- An `<int>` of the claim: a nonempty string of decimal digits. -/
def IsIntToken (d : List Char) : Prop := d ≠ [] ∧ ∀ c ∈ d, isDigitChar c = true

/-- An optional-whitespace run of the claim. -/
def IsWsRun (w : List Char) : Prop := ∀ c ∈ w, isSpaceJS c = true

/-- Standard exact integer arithmetic of the claim: division requires a
nonzero divisor and an exact (integer) quotient, otherwise it fails. -/
def evalOpExact (a : Nat) (op : Char) (b : Nat) : Option Int :=
  if op = '+' then some ((a : Int) + (b : Int))
  else if op = '-' then some ((a : Int) - (b : Int))
  else if op = '*' then some ((a : Int) * (b : Int))
  else if op = '/' then (if b ≠ 0 ∧ a % b = 0 then some ((a / b : Nat) : Int) else none)
  else none

/-- A string of the claim's form `<int> <op> <int> = <int>` (optional
surrounding whitespace), with `a`, `b`, `r` the exact decimal values of
its three integer tokens. -/
def EqShapeSub (t : List Char) (a : Nat) (op : Char) (b r : Nat) : Prop :=
  ∃ d1 w1 w2 d2 w3 w4 d3,
    t = d1 ++ w1 ++ op :: (w2 ++ d2 ++ w3 ++ '=' :: (w4 ++ d3)) ∧
    IsIntToken d1 ∧ IsWsRun w1 ∧ op ∈ (['+', '-', '*', '/'] : List Char) ∧
    IsWsRun w2 ∧ IsIntToken d2 ∧ IsWsRun w3 ∧ IsWsRun w4 ∧ IsIntToken d3 ∧
    digitsToNat d1 = a ∧ digitsToNat d2 = b ∧ digitsToNat d3 = r

/-- A substring of the claim's form whose left side, under exact integer
arithmetic, equals its right side. -/
def CorrectEquationSub (t : List Char) : Prop :=
  ∃ a op b r, EqShapeSub t a op b r ∧ evalOpExact a op b = some ((r : Nat) : Int)

/-- The input contains a correct-equation substring (in the exact
integer-arithmetic sense of the claim). -/
def ContainsCorrectEquation (s : List Char) : Prop :=
  ∃ p t q, s = p ++ t ++ q ∧ CorrectEquationSub t

/-- The input contains an equation-shaped substring that the code's JS
binary64 arithmetic check accepts. -/
def ContainsJsAcceptedEquation (s : List Char) : Prop :=
  ∃ p t q, s = p ++ t ++ q ∧ ∃ a op b r, EqShapeSub t a op b r ∧ checkOp a op b r = true

/-- The claim's 4-digit year token: `19xx` with xx any two digits, or
`20xx` with xx between 00 and 29. -/
def YearToken (y : List Char) : Prop :=
  (∃ x1 x2, y = ['1', '9', x1, x2] ∧ isDigitChar x1 = true ∧ isDigitChar x2 = true) ∨
  (∃ x1 x2, y = ['2', '0', x1, x2] ∧ (x1 = '0' ∨ x1 = '1' ∨ x1 = '2') ∧ isDigitChar x2 = true)

/-- A whole-word match's left side: the text before the token is empty or
ends in a non-word character. -/
def LeftBoundary (p : List Char) : Prop :=
  p = [] ∨ ∃ d, p.getLast? = some d ∧ isWordChar d = false

/-- A whole-word match's right side: the text after the token is empty or
starts with a non-word character. -/
def RightBoundary (q : List Char) : Prop :=
  q = [] ∨ ∃ d, q.head? = some d ∧ isWordChar d = false

/-! ## Helper lemmas -/

/-- Boolean list containment agrees with membership. -/
theorem contains_eq_false_iff (l : List Nat) (x : Nat) :
    l.contains x = false ↔ x ∉ l := by
  show List.elem x l = false ↔ x ∉ l
  rw [Bool.eq_false_iff]
  exact not_congr List.elem_iff

/-- On non-empty input and a non-empty previous list, `update` appends
`last + 1` (for `last` the final visible id) exactly when the last
visible rule's validator passes, `last + 1` is in range, and `last + 1`
is not already visible. -/
theorem update_cons (input : List Char) (p : Nat) (ps : List Nat) (hne : input ≠ []) :
    updateVisibleRules input (p :: ps) =
      if evaluate ((p :: ps).getLast (List.cons_ne_nil p ps)) input = true
          ∧ (p :: ps).getLast (List.cons_ne_nil p ps) + 1 ≤ rules10.length
          ∧ ((p :: ps).getLast (List.cons_ne_nil p ps) + 1) ∉ (p :: ps)
      then (p :: ps) ++ [(p :: ps).getLast (List.cons_ne_nil p ps) + 1]
      else (p :: ps) := by
  simp only [updateVisibleRules, List.isEmpty_eq_false.mpr hne, Bool.false_eq_true, if_false]
  split
  case h_1 r hfind =>
    have heval : evaluate ((p :: ps).getLast (List.cons_ne_nil p ps)) input
        = r.validator input := by
      rw [evaluate, hfind]
    cases hv : r.validator input with
    | true =>
      rw [if_pos rfl]
      by_cases hA : (p :: ps).getLast (List.cons_ne_nil p ps) + 1 ≤ rules10.length
          ∧ (p :: ps).contains ((p :: ps).getLast (List.cons_ne_nil p ps) + 1) = false
      · rw [if_pos hA, if_pos ⟨by rw [heval, hv], hA.1, (contains_eq_false_iff _ _).mp hA.2⟩]
      · rw [if_neg hA, if_neg]
        rintro ⟨_, h2, h3⟩
        exact hA ⟨h2, (contains_eq_false_iff _ _).mpr h3⟩
    | false =>
      rw [if_neg (by simp), if_neg]
      rintro ⟨h1, _⟩
      rw [heval, hv] at h1
      cases h1
  case h_2 hfind =>
    have heval : evaluate ((p :: ps).getLast (List.cons_ne_nil p ps)) input = false := by
      rw [evaluate, hfind]
    rw [if_neg]
    rintro ⟨h1, _⟩
    rw [heval] at h1
    cases h1

/-! ## Claims -/

/-- C1, counterexample.  The claim reads the appended id off the maximum
previously visible id; the code reads it off the last element of the
list.  On the list `[3, 1]` with input `"abcdef"`, the maximum is 3 and
`evaluate 3` fails (no uppercase letter), so the claim requires the
visible set to stay `[3, 1]`; the code instead checks rule 1 (the last
element), which passes, and appends 2. -/
theorem C1_counterexample :
    updateVisibleRules ("abcdef".toList) [3, 1] = [3, 1, 2]
    ∧ evaluate (specMaxId [3, 1]) ("abcdef".toList) = false
    ∧ updateVisibleRules ("abcdef".toList) [3, 1] ≠ [3, 1] :=
  ⟨by decide, by decide, by decide⟩

/-- C1, amended: `update` returns the empty set on empty input; returns
`[1]` on non-empty input from an empty previous set, whether or not rule 1
passes; and otherwise, with `last` the LAST ELEMENT of the previous list
(the maximum whenever the list is ascending, as all reachable states
are), appends `last + 1` exactly when `evaluate last input` is true,
`last + 1 ≤ N` and `last + 1` is not yet visible, leaving the set
unchanged in every other case. -/
theorem C1_update_characterization (input : List Char) (prev : List Nat) :
    (input = [] → updateVisibleRules input prev = [])
    ∧ (input ≠ [] → prev = [] → updateVisibleRules input prev = [1])
    ∧ (∀ h : prev ≠ [], input ≠ [] →
        (evaluate (prev.getLast h) input = true → prev.getLast h + 1 ≤ rules10.length →
          (prev.getLast h + 1) ∉ prev →
          updateVisibleRules input prev = prev ++ [prev.getLast h + 1])
        ∧ (¬(evaluate (prev.getLast h) input = true ∧ prev.getLast h + 1 ≤ rules10.length
              ∧ (prev.getLast h + 1) ∉ prev) →
          updateVisibleRules input prev = prev)) := by
  refine ⟨?_, ?_, ?_⟩
  · rintro rfl
    simp [updateVisibleRules]
  · rintro hne rfl
    simp [updateVisibleRules, List.isEmpty_eq_false.mpr hne]
  · intro h hne
    match prev, h with
    | p :: ps, _ =>
      rw [update_cons input p ps hne]
      constructor
      · intro h1 h2 h3
        rw [if_pos ⟨h1, h2, h3⟩]
      · intro hnot
        rw [if_neg hnot]

/-- C4: rule 9's validator is a total boolean function (the error branch
of its `try`/`catch` is never observable), and on the spec's examples:
`"2+2=4"` is accepted, `"2+2=5"` rejected, and `"5/0=0"` (division by
zero) rejected rather than throwing. -/
theorem C4_rule9_total_examples :
    (∀ v : List Char, rule9Valid v = true ∨ rule9Valid v = false)
    ∧ rule9Valid ("2+2=4".toList) = true
    ∧ rule9Valid ("2+2=5".toList) = false
    ∧ rule9Valid ("5/0=0".toList) = false :=
  ⟨fun v => Bool.eq_false_or_eq_true (rule9Valid v), by decide, by decide, by decide⟩

/-- C2: within a non-empty-input session every update keeps all previous
members and adds at most one; and every state reachable from the empty
state is the contiguous ascending run `[1, ..., k]` for some `k ≤ N`. -/
theorem C2_monotone_contiguous (input : List Char) (prev l : List Nat)
    (hne : input ≠ []) (hl : ReachableVisible l) :
    (prev.Sublist (updateVisibleRules input prev)
      ∧ (updateVisibleRules input prev).length ≤ prev.length + 1)
    ∧ ∃ k, k ≤ rules10.length ∧ l = List.range' 1 k := by
  constructor
  · cases prev with
    | nil =>
      have h1 : updateVisibleRules input [] = [1] := by
        simp [updateVisibleRules, List.isEmpty_eq_false.mpr hne]
      rw [h1]
      exact ⟨List.nil_sublist _, by simp⟩
    | cons p ps =>
      rw [update_cons input p ps hne]
      split
      · exact ⟨List.sublist_append_left _ _, by simp⟩
      · exact ⟨List.Sublist.refl _, by simp⟩
  · induction hl with
    | init => exact ⟨0, Nat.zero_le _, rfl⟩
    | step input' prev' hprev IH =>
      obtain ⟨k, hk, rfl⟩ := IH
      by_cases hi : input' = []
      · subst hi
        exact ⟨0, Nat.zero_le _, by simp [updateVisibleRules]⟩
      · cases k with
        | zero =>
          refine ⟨1, by decide, ?_⟩
          show updateVisibleRules input' [] = List.range' 1 1
          simp [updateVisibleRules, List.isEmpty_eq_false.mpr hi]
        | succ j =>
          have hcons : List.range' 1 (j + 1) = 1 :: List.range' 2 j := rfl
          have hlast : (1 :: List.range' 2 j).getLast (List.cons_ne_nil _ _) = j + 1 := by
            have h1 : (1 :: List.range' 2 j).getLast? = some (j + 1) := by
              rw [← hcons, List.range'_concat, List.getLast?_concat]
              congr 1
              omega
            have h2 := List.getLast?_eq_getLast (1 :: List.range' 2 j) (List.cons_ne_nil _ _)
            rw [h1] at h2
            exact (Option.some.inj h2).symm
          rw [hcons, update_cons input' 1 (List.range' 2 j) hi, hlast]
          split
          next h =>
            refine ⟨j + 2, h.2.1, ?_⟩
            have hr2 : List.range' 1 (j + 2) = List.range' 1 (j + 1) ++ [j + 2] := by
              rw [List.range'_concat]
              congr 2
              omega
            rw [hr2, hcons]
          next h =>
            exact ⟨j + 1, hk, hcons.symm⟩

/-- C2, witness: a concrete update and the initial reachable state. -/
theorem C2_witness :
    (([1] : List Nat).Sublist (updateVisibleRules ("abcde".toList) [1])
      ∧ (updateVisibleRules ("abcde".toList) [1]).length ≤ ([1] : List Nat).length + 1)
    ∧ ∃ k, k ≤ rules10.length ∧ ([] : List Nat) = List.range' 1 k :=
  C2_monotone_contiguous ("abcde".toList) [1] [] (by decide) ReachableVisible.init

/-- Looking a rule of the set up by its id and evaluating is the same as
applying its own validator. -/
theorem evaluate_eq_validator (r : Rule) (hr : r ∈ rules10) (v : List Char) :
    evaluate r.id v = r.validator v := by
  simp only [rules10] at hr
  fin_cases hr <;> rfl

/-- C8: for every visible set and input, the two result groups are exactly
the visible rules split by `evaluate`, they are disjoint, and each lists
its rules in ascending id order. -/
theorem C8_partition (visible : List Nat) (input : List Char) :
    (∀ r, r ∈ fulfilledRules visible input
        ↔ r ∈ rules10 ∧ visible.contains r.id = true ∧ evaluate r.id input = true)
    ∧ (∀ r, r ∈ unfulfilledRules visible input
        ↔ r ∈ rules10 ∧ visible.contains r.id = true ∧ evaluate r.id input = false)
    ∧ (∀ r, ¬(r ∈ fulfilledRules visible input ∧ r ∈ unfulfilledRules visible input))
    ∧ ((fulfilledRules visible input).map Rule.id).Pairwise (· < ·)
    ∧ ((unfulfilledRules visible input).map Rule.id).Pairwise (· < ·) := by
  have hful : ∀ r, r ∈ fulfilledRules visible input
      ↔ r ∈ rules10 ∧ visible.contains r.id = true ∧ evaluate r.id input = true := by
    intro r
    rw [fulfilledRules, List.mem_filter, Bool.and_eq_true]
    constructor
    · rintro ⟨hr, hc, hv⟩
      exact ⟨hr, hc, by rw [evaluate_eq_validator r hr]; exact hv⟩
    · rintro ⟨hr, hc, he⟩
      exact ⟨hr, hc, by rw [← evaluate_eq_validator r hr]; exact he⟩
  have hunf : ∀ r, r ∈ unfulfilledRules visible input
      ↔ r ∈ rules10 ∧ visible.contains r.id = true ∧ evaluate r.id input = false := by
    intro r
    rw [unfulfilledRules, List.mem_filter, Bool.and_eq_true]
    constructor
    · rintro ⟨hr, hc, hv⟩
      rw [Bool.not_eq_true'] at hv
      exact ⟨hr, hc, by rw [evaluate_eq_validator r hr]; exact hv⟩
    · rintro ⟨hr, hc, he⟩
      refine ⟨hr, hc, ?_⟩
      rw [Bool.not_eq_true']
      rw [← evaluate_eq_validator r hr]
      exact he
  have hpw : (rules10.map Rule.id).Pairwise (· < ·) := by decide
  refine ⟨hful, hunf, ?_, ?_, ?_⟩
  · rintro r ⟨h1, h2⟩
    have e1 := ((hful r).mp h1).2.2
    have e2 := ((hunf r).mp h2).2.2
    rw [e1] at e2
    cases e2
  · exact List.Pairwise.sublist ((List.filter_sublist _).map _) hpw
  · exact List.Pairwise.sublist ((List.filter_sublist _).map _) hpw

/-- C9: every rule id of the set resolves through `evaluate` to its own
validator, a total boolean function of the input (internal failures are
only ever surfaced as `false`, never as an exception). -/
theorem C9_validators_total (ruleId : Nat) (v : List Char)
    (hr : ruleId ∈ rules10.map Rule.id) :
    ∃ r ∈ rules10, r.id = ruleId ∧ evaluate ruleId v = r.validator v
      ∧ (r.validator v = true ∨ r.validator v = false) := by
  obtain ⟨r, hr', hid⟩ := List.mem_map.mp hr
  refine ⟨r, hr', hid, ?_, Bool.eq_false_or_eq_true _⟩
  rw [← hid]
  exact evaluate_eq_validator r hr' v

/-- C9, witness: rule 9 at a concrete input. -/
theorem C9_witness :
    ∃ r ∈ rules10, r.id = 9 ∧ evaluate 9 ("2+2=4".toList) = r.validator ("2+2=4".toList)
      ∧ (r.validator ("2+2=4".toList) = true ∨ r.validator ("2+2=4".toList) = false) :=
  C9_validators_total 9 ("2+2=4".toList) (by decide)

/-- C10, counterexample.  On `"99999999*99999999=9999999800000000"` the
leftmost (and only) match is arithmetically incorrect in exact integer
arithmetic — `99999999 * 99999999 = 9999999800000001` — yet rule 9
returns true: JS computes the product in binary64, where the exact value
is a round-to-even tie that rounds to `9999999800000000`, and the
comparison succeeds. -/
theorem C10_counterexample :
    findEq ("99999999*99999999=9999999800000000".toList)
      = some ([], ⟨99999999, '*', 99999999, 9999999800000000,
          "99999999*99999999=9999999800000000".toList, []⟩)
    ∧ 99999999 * 99999999 ≠ 9999999800000000
    ∧ rule9Valid ("99999999*99999999=9999999800000000".toList) = true :=
  ⟨by decide, by decide, by decide⟩

/-- C10, amended: rule 9's result is decided by the leftmost regex match
alone — whenever the leftmost match is rejected by the JS binary64
arithmetic check, the validator returns `false`, whatever correct
equation may follow later in the input.  (Exact-integer incorrectness
forces rejection only where binary64 arithmetic is exact; an incorrect
equation whose sides round together, as in the counterexample, is
accepted.) -/
theorem C10_leftmost_match_only (s pre : List Char) (m : EqMatch)
    (h : findEq s = some (pre, m)) (hbad : checkOp m.a m.op m.b m.r = false) :
    rule9Valid s = false := by
  have hval : rule9Valid s = checkOp m.a m.op m.b m.r := by
    rw [rule9Valid, h]
  rw [hval, hbad]

/-- C10, witness: in `"2+2=5 3+3=6"` the leftmost match `2+2=5` is wrong,
so rule 9 fails although the later substring `3+3=6` is a correct
equation. -/
theorem C10_witness : rule9Valid ("2+2=5 3+3=6".toList) = false :=
  C10_leftmost_match_only ("2+2=5 3+3=6".toList) []
    ⟨2, '+', 2, 5, "2+2=5".toList, " 3+3=6".toList⟩ (by decide) (by decide)

/-- Any list with a triple run of a non-terminator character further in
also has one from the front. -/
theorem hasTripleRun_cons (x : Char) (t : List Char) (h : hasTripleRun t = true) :
    hasTripleRun (x :: t) = true := by
  match t, h with
  | [], h => exact Bool.noConfusion h
  | [_], h => exact Bool.noConfusion h
  | [_, _], h => exact Bool.noConfusion h
  | c1 :: c2 :: c3 :: r, h =>
    show ((!isLineTerm x && x == c1 && x == c2) || hasTripleRun (c1 :: c2 :: c3 :: r)) = true
    rw [h, Bool.or_true]

/-- A triple run of a non-terminator character anywhere makes the scan
succeed. -/
theorem hasTripleRun_append (p : List Char) (c : Char) (q : List Char)
    (hc : isLineTerm c = false) : hasTripleRun (p ++ c :: c :: c :: q) = true := by
  induction p with
  | nil =>
    show ((!isLineTerm c && c == c && c == c) || hasTripleRun (c :: c :: q)) = true
    simp [hc]
  | cons x p ih => exact hasTripleRun_cons x _ ih

/-- A successful scan yields an explicit triple run of a non-terminator
character. -/
theorem hasTripleRun_exists (s : List Char) (h : hasTripleRun s = true) :
    ∃ c p q, isLineTerm c = false ∧ s = p ++ c :: c :: c :: q := by
  induction s with
  | nil => exact absurd h (by decide)
  | cons a t ih =>
    cases t with
    | nil => exact Bool.noConfusion h
    | cons b u =>
      cases u with
      | nil => exact Bool.noConfusion h
      | cons d w =>
        have h' : ((!isLineTerm a && a == b && a == d) || hasTripleRun (b :: d :: w)) = true := h
        rw [Bool.or_eq_true] at h'
        rcases h' with h1 | h2
        · simp only [Bool.and_eq_true, Bool.not_eq_true', beq_iff_eq] at h1
          obtain ⟨⟨hterm, hab⟩, had⟩ := h1
          subst hab
          subst had
          exact ⟨a, [], w, hterm, rfl⟩
        · obtain ⟨c, p, q, hc, heq⟩ := ih h2
          exact ⟨c, a :: p, q, hc, by rw [heq, List.cons_append]⟩

/-- C5, counterexample.  The string of three newlines is a run of 3
identical consecutive characters, yet rule 5 accepts it: the JS `.` in
`(.)\1{2}` does not match line terminators. -/
theorem C5_counterexample :
    (∃ c : Char, ∃ p q : List Char, ("\n\n\n".toList) = p ++ c :: c :: c :: q)
    ∧ rule5Valid ("\n\n\n".toList) = true :=
  ⟨⟨'\n', [], [], by decide⟩, by decide⟩

/-- A successful `parseEq` splits the input into the matched span and the
remainder, and the matched span has the claim's equation shape with the
match's exact group values. -/
theorem parseEq_structure (s : List Char) (m : EqMatch) (h : parseEq s = some m) :
    s = m.matched ++ m.rest ∧ EqShapeSub m.matched m.a m.op m.b m.r := by
  simp only [parseEq] at h
  split at h
  next => exact Option.noConfusion h
  next hd1 =>
    split at h
    next heq2 => exact Option.noConfusion h
    next op r3 heq2 =>
      split at h
      next hop =>
        split at h
        next => exact Option.noConfusion h
        next hd2 =>
          split at h
          next heq6 => exact Option.noConfusion h
          next eqc r7 heq6 =>
            split at h
            next heqc =>
              split at h
              next => exact Option.noConfusion h
              next hd3 =>
                rw [beq_iff_eq] at heqc
                subst heqc
                obtain rfl := (Option.some.inj h).symm
                rw [Bool.not_eq_true] at hd1 hd2 hd3
                constructor
                · show s = _ ++ _
                  conv_lhs => rw [← List.takeWhile_append_dropWhile isDigitChar s,
                    ← List.takeWhile_append_dropWhile isSpaceJS (List.dropWhile isDigitChar s),
                    heq2,
                    ← List.takeWhile_append_dropWhile isSpaceJS r3,
                    ← List.takeWhile_append_dropWhile isDigitChar (List.dropWhile isSpaceJS r3),
                    ← List.takeWhile_append_dropWhile isSpaceJS
                        (List.dropWhile isDigitChar (List.dropWhile isSpaceJS r3)),
                    heq6,
                    ← List.takeWhile_append_dropWhile isSpaceJS r7,
                    ← List.takeWhile_append_dropWhile isDigitChar (List.dropWhile isSpaceJS r7)]
                  simp [List.append_assoc]
                · refine ⟨s.takeWhile isDigitChar,
                    (s.dropWhile isDigitChar).takeWhile isSpaceJS,
                    r3.takeWhile isSpaceJS,
                    (r3.dropWhile isSpaceJS).takeWhile isDigitChar,
                    ((r3.dropWhile isSpaceJS).dropWhile isDigitChar).takeWhile isSpaceJS,
                    r7.takeWhile isSpaceJS,
                    (r7.dropWhile isSpaceJS).takeWhile isDigitChar,
                    rfl, ?_, ?_, ?_, ?_, ?_, ?_, ?_, ?_, rfl, rfl, rfl⟩
                  · exact ⟨List.isEmpty_eq_false.mp hd1,
                      fun c hc => List.mem_takeWhile_imp hc⟩
                  · exact fun c hc => List.mem_takeWhile_imp hc
                  · have hops : op = '+' ∨ op = '-' ∨ op = '*' ∨ op = '/' := by
                      simpa [isOpChar, or_assoc] using hop
                    rcases hops with rfl | rfl | rfl | rfl <;> simp
                  · exact fun c hc => List.mem_takeWhile_imp hc
                  · exact ⟨List.isEmpty_eq_false.mp hd2,
                      fun c hc => List.mem_takeWhile_imp hc⟩
                  · exact fun c hc => List.mem_takeWhile_imp hc
                  · exact fun c hc => List.mem_takeWhile_imp hc
                  · exact ⟨List.isEmpty_eq_false.mp hd3,
                      fun c hc => List.mem_takeWhile_imp hc⟩
            next => exact Option.noConfusion h
      next => exact Option.noConfusion h

/-- A successful scan found a suffix on which the regex attempt succeeds,
at the returned position. -/
theorem findEqAux_sound (s : List Char) : ∀ (pre p : List Char) (m : EqMatch),
    findEqAux pre s = some (p, m) →
    ∃ t, pre.reverse ++ s = p ++ t ∧ parseEq t = some m := by
  induction s with
  | nil =>
    intro pre p m h
    rw [findEqAux] at h
    cases hp : parseEq [] with
    | some m' =>
      rw [hp] at h
      obtain ⟨h1, h2⟩ := Prod.mk.injEq .. ▸ Option.some.inj h
      exact ⟨[], by rw [← h1], by rw [hp, h2]⟩
    | none => rw [hp] at h; exact Option.noConfusion h
  | cons c t ih =>
    intro pre p m h
    rw [findEqAux] at h
    cases hp : parseEq (c :: t) with
    | some m' =>
      rw [hp] at h
      obtain ⟨h1, h2⟩ := Prod.mk.injEq .. ▸ Option.some.inj h
      exact ⟨c :: t, by rw [← h1], by rw [hp, h2]⟩
    | none =>
      rw [hp] at h
      obtain ⟨t', ht', hpt⟩ := ih (c :: pre) p m h
      refine ⟨t', ?_, hpt⟩
      rw [← ht', List.reverse_cons, List.append_assoc, List.singleton_append]

/-- C3, counterexample.  The input `"2+2=5 3+3=6"` contains the correct
equation substring `"3+3=6"`, but rule 9 evaluates only its leftmost
match `"2+2=5"` and returns false. -/
theorem C3_counterexample :
    ContainsCorrectEquation ("2+2=5 3+3=6".toList)
    ∧ rule9Valid ("2+2=5 3+3=6".toList) = false := by
  constructor
  · have hws : IsWsRun [] := by intro c hc; cases hc
    refine ⟨"2+2=5 ".toList, "3+3=6".toList, [], by decide, 3, '+', 3, 6,
      ⟨['3'], [], [], ['3'], [], [], ['6'], by decide,
        ⟨by decide, by decide⟩, hws, by decide, hws,
        ⟨by decide, by decide⟩, hws, hws,
        ⟨by decide, by decide⟩, by decide, by decide, by decide⟩,
      by decide⟩
  · decide

/-- C3, amended: whenever rule 9 returns true, the input contains an
equation-shaped substring that the JS binary64 arithmetic check accepts
(equivalently, rule 9 is false on every input with no such substring).
Both halves of the original claim fail on the code: only the leftmost
regex match is checked, and the check uses float64 arithmetic, which
accepts some exactly-incorrect equations by rounding. -/
theorem C3_accepted_equation (v : List Char)
    (h : rule9Valid v = true) : ContainsJsAcceptedEquation v := by
  rw [rule9Valid] at h
  cases hf : findEq v with
  | none => rw [hf] at h; exact Bool.noConfusion h
  | some pm =>
    obtain ⟨p, m⟩ := pm
    rw [hf] at h
    obtain ⟨t, ht, hpt⟩ := findEqAux_sound v [] p m hf
    obtain ⟨hsplit, hshape⟩ := parseEq_structure t m hpt
    refine ⟨p, m.matched, m.rest, ?_, m.a, m.op, m.b, m.r, hshape, h⟩
    rw [List.append_assoc, ← hsplit]
    simpa using ht

/-- C3, witness: `"2+2=4"` is accepted by rule 9 and indeed contains an
accepted equation. -/
theorem C3_witness : ContainsJsAcceptedEquation ("2+2=4".toList) :=
  C3_accepted_equation ("2+2=4".toList) (by decide)

/-- Dropping a matching run never lengthens a list. -/
theorem length_dropWhile_le {α : Type} (p : α → Bool) (l : List α) :
    (l.dropWhile p).length ≤ l.length := by
  induction l with
  | nil => exact Nat.le_refl _
  | cons a t ih =>
    rw [List.dropWhile_cons]
    by_cases h : p a = true
    · rw [if_pos h]
      exact Nat.le_trans ih (Nat.le_succ _)
    · rw [if_neg h]

/-- The head of a dropped-while list fails the predicate. -/
theorem dropWhile_head_false {α : Type} (p : α → Bool) (l : List α) (c : α) (t : List α)
    (h : l.dropWhile p = c :: t) : p c = false := by
  induction l with
  | nil => exact List.noConfusion h
  | cons a l ih =>
    rw [List.dropWhile_cons] at h
    by_cases ha : p a = true
    · rw [if_pos ha] at h
      exact ih h
    · rw [if_neg ha] at h
      obtain ⟨rfl, -⟩ := List.cons.injEq .. ▸ h
      exact Bool.eq_false_iff.mpr ha

/-- Dropping while twice is dropping while once. -/
theorem dropWhile_idem {α : Type} (p : α → Bool) (l : List α) :
    (l.dropWhile p).dropWhile p = l.dropWhile p := by
  cases h : l.dropWhile p with
  | nil => rfl
  | cons c t =>
    rw [List.dropWhile_cons, if_neg]
    rw [dropWhile_head_false p l c t h]
    exact Bool.false_ne_true

/-- The word list does not depend on the fuel, once the fuel exceeds the
length. -/
theorem wordsAux_fuel (f1 : Nat) : ∀ (f2 : Nat) (s : List Char),
    s.length < f1 → s.length < f2 → wordsAux f1 s = wordsAux f2 s := by
  induction f1 with
  | zero => intro f2 s h1 h2; omega
  | succ a ih =>
    intro f2 s h1 h2
    cases f2 with
    | zero => omega
    | succ b =>
      rw [wordsAux, wordsAux]
      by_cases hempty : (s.dropWhile isSpaceJS).isEmpty = true
      · simp [hempty]
      · simp only [hempty, if_false]
        obtain ⟨c, t, hct⟩ : ∃ c t, s.dropWhile isSpaceJS = c :: t := by
          cases hs1 : s.dropWhile isSpaceJS with
          | nil => rw [hs1] at hempty; exact absurd rfl hempty
          | cons c t => exact ⟨c, t, rfl⟩
        have hc : isSpaceJS c = false := dropWhile_head_false _ _ _ _ hct
        have hXlen : ((s.dropWhile isSpaceJS).dropWhile (fun c => !isSpaceJS c)).length
            < s.length := by
          rw [hct, List.dropWhile_cons, if_pos (by rw [hc]; rfl)]
          calc (t.dropWhile (fun c => !isSpaceJS c)).length
              ≤ t.length := length_dropWhile_le _ _
            _ < (c :: t).length := by simp
            _ ≤ s.length := by rw [← hct]; exact length_dropWhile_le _ _
        exact congrArg
          (fun l => (s.dropWhile isSpaceJS).takeWhile (fun c => !isSpaceJS c) :: l)
          (ih b ((s.dropWhile isSpaceJS).dropWhile (fun c => !isSpaceJS c))
            (by omega) (by omega))

/-- The split does not depend on the fuel, once the fuel exceeds the
length. -/
theorem splitWsAux_fuel (f1 : Nat) : ∀ (f2 : Nat) (s : List Char),
    s.length < f1 → s.length < f2 → splitWsAux f1 s = splitWsAux f2 s := by
  induction f1 with
  | zero => intro f2 s h1 h2; omega
  | succ a ih =>
    intro f2 s h1 h2
    cases f2 with
    | zero => omega
    | succ b =>
      rw [splitWsAux, splitWsAux]
      by_cases hempty : (s.dropWhile (fun c => !isSpaceJS c)).isEmpty = true
      · simp [hempty]
      · simp only [hempty, if_false]
        obtain ⟨c, t, hct⟩ : ∃ c t, s.dropWhile (fun c => !isSpaceJS c) = c :: t := by
          cases hs1 : s.dropWhile (fun c => !isSpaceJS c) with
          | nil => rw [hs1] at hempty; exact absurd rfl hempty
          | cons c t => exact ⟨c, t, rfl⟩
        have hc : isSpaceJS c = true := by
          have := dropWhile_head_false _ _ _ _ hct
          revert this
          cases isSpaceJS c <;> simp
        have hXlen : ((s.dropWhile (fun c => !isSpaceJS c)).dropWhile isSpaceJS).length
            < s.length := by
          rw [hct, List.dropWhile_cons, if_pos hc]
          calc (t.dropWhile isSpaceJS).length
              ≤ t.length := length_dropWhile_le _ _
            _ < (c :: t).length := by simp
            _ ≤ s.length := by rw [← hct]; exact length_dropWhile_le _ _
        exact congrArg
          (fun l => s.takeWhile (fun c => !isSpaceJS c) :: l)
          (ih b ((s.dropWhile (fun c => !isSpaceJS c)).dropWhile isSpaceJS)
            (by omega) (by omega))

/-- One-step unfolding of `wordsOf`. -/
theorem wordsOf_eq (s : List Char) : wordsOf s =
    if (s.dropWhile isSpaceJS).isEmpty then []
    else (s.dropWhile isSpaceJS).takeWhile (fun c => !isSpaceJS c)
      :: wordsOf ((s.dropWhile isSpaceJS).dropWhile (fun c => !isSpaceJS c)) := by
  rw [wordsOf, wordsAux]
  by_cases hempty : (s.dropWhile isSpaceJS).isEmpty = true
  · simp [hempty]
  · simp only [hempty, if_false]
    obtain ⟨c, t, hct⟩ : ∃ c t, s.dropWhile isSpaceJS = c :: t := by
      cases hs1 : s.dropWhile isSpaceJS with
      | nil => rw [hs1] at hempty; exact absurd rfl hempty
      | cons c t => exact ⟨c, t, rfl⟩
    have hc : isSpaceJS c = false := dropWhile_head_false _ _ _ _ hct
    have hXlen : ((s.dropWhile isSpaceJS).dropWhile (fun c => !isSpaceJS c)).length
        < s.length := by
      rw [hct, List.dropWhile_cons, if_pos (by rw [hc]; rfl)]
      calc (t.dropWhile (fun c => !isSpaceJS c)).length
          ≤ t.length := length_dropWhile_le _ _
        _ < (c :: t).length := by simp
        _ ≤ s.length := by rw [← hct]; exact length_dropWhile_le _ _
    exact congrArg
      (fun l => (s.dropWhile isSpaceJS).takeWhile (fun c => !isSpaceJS c) :: l)
      (wordsAux_fuel s.length
        (((s.dropWhile isSpaceJS).dropWhile (fun c => !isSpaceJS c)).length + 1)
        ((s.dropWhile isSpaceJS).dropWhile (fun c => !isSpaceJS c))
        (by omega) (by omega))

/-- One-step unfolding of `splitWsJS`. -/
theorem splitWsJS_eq (s : List Char) : splitWsJS s =
    if (s.dropWhile (fun c => !isSpaceJS c)).isEmpty then
      [s.takeWhile (fun c => !isSpaceJS c)]
    else s.takeWhile (fun c => !isSpaceJS c)
      :: splitWsJS ((s.dropWhile (fun c => !isSpaceJS c)).dropWhile isSpaceJS) := by
  rw [splitWsJS, splitWsAux]
  by_cases hempty : (s.dropWhile (fun c => !isSpaceJS c)).isEmpty = true
  · simp [hempty]
  · simp only [hempty, if_false]
    obtain ⟨c, t, hct⟩ : ∃ c t, s.dropWhile (fun c => !isSpaceJS c) = c :: t := by
      cases hs1 : s.dropWhile (fun c => !isSpaceJS c) with
      | nil => rw [hs1] at hempty; exact absurd rfl hempty
      | cons c t => exact ⟨c, t, rfl⟩
    have hc : isSpaceJS c = true := by
      have := dropWhile_head_false _ _ _ _ hct
      revert this
      cases isSpaceJS c <;> simp
    have hXlen : ((s.dropWhile (fun c => !isSpaceJS c)).dropWhile isSpaceJS).length
        < s.length := by
      rw [hct, List.dropWhile_cons, if_pos hc]
      calc (t.dropWhile isSpaceJS).length
          ≤ t.length := length_dropWhile_le _ _
        _ < (c :: t).length := by simp
        _ ≤ s.length := by rw [← hct]; exact length_dropWhile_le _ _
    exact congrArg
      (fun l => s.takeWhile (fun c => !isSpaceJS c) :: l)
      (splitWsAux_fuel s.length
        (((s.dropWhile (fun c => !isSpaceJS c)).dropWhile isSpaceJS).length + 1)
        ((s.dropWhile (fun c => !isSpaceJS c)).dropWhile isSpaceJS)
        (by omega) (by omega))

/-- Leading whitespace does not change the word list. -/
theorem wordsOf_dropWhile (s : List Char) :
    wordsOf (s.dropWhile isSpaceJS) = wordsOf s := by
  rw [wordsOf_eq, wordsOf_eq s, dropWhile_idem]

/-- A predicate false on the empty string holds somewhere in the JS split
result exactly when it holds on some whitespace-delimited word: the split
differs from the word list only by empty pieces. -/
theorem splitWs_words_any (P : List Char → Bool) (hP : P [] = false) :
    ∀ (n : Nat) (s : List Char), s.length ≤ n →
      (splitWsJS s).any P = (wordsOf s).any P := by
  intro n
  induction n with
  | zero =>
    intro s hs
    have hnil : s = [] := List.length_eq_zero.mp (Nat.le_zero.mp hs)
    subst hnil
    rw [splitWsJS_eq, wordsOf_eq]
    simp [hP]
  | succ n ih =>
    intro s hs
    cases s with
    | nil =>
      rw [splitWsJS_eq, wordsOf_eq]
      simp [hP]
    | cons a t =>
      by_cases ha : isSpaceJS a = true
      · have hdropneg : (a :: t).dropWhile (fun c => !isSpaceJS c) = a :: t := by
          rw [List.dropWhile_cons, if_neg (by simp [ha])]
        have hdropws : (a :: t).dropWhile isSpaceJS = t.dropWhile isSpaceJS := by
          rw [List.dropWhile_cons, if_pos ha]
        have h1 : splitWsJS (a :: t) = [] :: splitWsJS (t.dropWhile isSpaceJS) := by
          rw [splitWsJS_eq, hdropneg]
          rw [if_neg (by simp)]
          rw [List.takeWhile_cons, if_neg (by simp [ha]), hdropws]
        have h2 : wordsOf (a :: t) = wordsOf (t.dropWhile isSpaceJS) := by
          rw [← wordsOf_dropWhile (a :: t), hdropws, wordsOf_dropWhile]
        rw [h1, h2, List.any_cons, hP, Bool.false_or]
        exact ih (t.dropWhile isSpaceJS)
          (Nat.le_trans (length_dropWhile_le _ _) (Nat.le_of_succ_le_succ hs))
      · have hfa : isSpaceJS a = false := Bool.eq_false_iff.mpr ha
        have hdropws : (a :: t).dropWhile isSpaceJS = a :: t := by
          rw [List.dropWhile_cons, if_neg (by simp [hfa])]
        have hdropneg : (a :: t).dropWhile (fun c => !isSpaceJS c)
            = t.dropWhile (fun c => !isSpaceJS c) := by
          rw [List.dropWhile_cons, if_pos (by simp [hfa])]
        rw [splitWsJS_eq, wordsOf_eq, hdropws, hdropneg]
        cases hR : t.dropWhile (fun c => !isSpaceJS c) with
        | nil =>
          rw [if_pos (by simp), if_neg (by simp)]
          have hwnil : wordsOf ([] : List Char) = [] := by
            rw [wordsOf_eq]
            simp
          rw [hwnil]
        | cons w u =>
          have hw : isSpaceJS w = true := by
            have := dropWhile_head_false _ _ _ _ hR
            revert this
            cases isSpaceJS w <;> simp
          rw [if_neg (by simp), if_neg (by simp)]
          rw [List.any_cons, List.any_cons]
          have hwords : wordsOf (w :: u) = wordsOf ((w :: u).dropWhile isSpaceJS) :=
            (wordsOf_dropWhile _).symm
          have hwu : (w :: u).dropWhile isSpaceJS = u.dropWhile isSpaceJS := by
            rw [List.dropWhile_cons, if_pos hw]
          rw [hwords, hwu]
          have hlen : (u.dropWhile isSpaceJS).length ≤ n := by
            have h1 : (u.dropWhile isSpaceJS).length ≤ u.length := length_dropWhile_le _ _
            have h2 : (w :: u).length ≤ t.length := by
              rw [← hR]
              exact length_dropWhile_le _ _
            have h3 : t.length ≤ n := Nat.le_of_succ_le_succ hs
            simp only [List.length_cons] at h2
            omega
          rw [ih (u.dropWhile isSpaceJS) hlen]

/-- C6: rule 6 holds exactly when some whitespace-delimited word cleans
(lowercase, keep only the letters a-z) to a palindrome of length at least
3; in particular `"level"` is accepted and `"levels"` is not. -/
theorem C6_palindrome_word (s : List Char) :
    (rule6Valid s = true ↔ ∃ w ∈ wordsOf s,
        3 ≤ (cleanWord w).length ∧ cleanWord w = (cleanWord w).reverse)
    ∧ rule6Valid ("level".toList) = true
    ∧ rule6Valid ("levels".toList) = false := by
  refine ⟨?_, by decide, by decide⟩
  rw [rule6Valid, splitWs_words_any palWordOK (by decide) s.length s (Nat.le_refl _),
    List.any_eq_true]
  have hiff : ∀ w : List Char, palWordOK w = true
      ↔ 3 ≤ (cleanWord w).length ∧ cleanWord w = (cleanWord w).reverse := by
    intro w
    rw [palWordOK]
    simp only [Bool.and_eq_true, decide_eq_true_eq, beq_iff_eq]
  constructor
  · rintro ⟨w, hw, hp⟩
    exact ⟨w, hw, (hiff w).mp hp⟩
  · rintro ⟨w, hw, hp⟩
    exact ⟨w, hw, (hiff w).mpr hp⟩

/-- C5, amended: rule 5 evaluates to false exactly on the strings that
contain a run of 3 or more identical consecutive characters whose
character is not a line terminator (LF, CR, U+2028, U+2029); runs of line
terminators are invisible to the JS `.` and are not detected. -/
theorem C5_triple_run_iff (s : List Char) :
    rule5Valid s = true ↔ ¬∃ c p q, isLineTerm c = false ∧ s = p ++ c :: c :: c :: q := by
  constructor
  · rintro h ⟨c, p, q, hc, heq⟩
    have hrun := hasTripleRun_append p c q hc
    rw [← heq] at hrun
    rw [rule5Valid, hrun] at h
    cases h
  · intro h
    cases hrun : hasTripleRun s with
    | false => simp [rule5Valid, hrun]
    | true => exact absurd (hasTripleRun_exists s hrun) h

/-- The boolean right-boundary test agrees with the specification's
right-boundary predicate. -/
theorem rightBoundary_iff (q : List Char) :
    RightBoundary q ↔ boundaryOK q.head? = true := by
  cases q with
  | nil => simp [RightBoundary, boundaryOK]
  | cons d t =>
    simp [RightBoundary, boundaryOK, Bool.not_eq_true']

/-- The year alternation agrees with the specification's year token. -/
theorem yearPat_iff (c1 c2 c3 c4 : Char) :
    yearPat c1 c2 c3 c4 = true ↔ YearToken [c1, c2, c3, c4] := by
  constructor
  · intro h
    rw [yearPat, Bool.or_eq_true] at h
    rcases h with h | h
    · simp only [Bool.and_eq_true, beq_iff_eq] at h
      obtain ⟨⟨⟨h1, h2⟩, h3⟩, h4⟩ := h
      exact Or.inl ⟨c3, c4, by rw [h1, h2], h3, h4⟩
    · simp only [Bool.and_eq_true, Bool.or_eq_true, beq_iff_eq] at h
      obtain ⟨⟨⟨h1, h2⟩, h3⟩, h4⟩ := h
      refine Or.inr ⟨c3, c4, by rw [h1, h2], ?_, h4⟩
      tauto
  · intro h
    rcases h with ⟨x1, x2, heq, hx1, hx2⟩ | ⟨x1, x2, heq, hx1, hx2⟩
    · simp only [List.cons.injEq, and_true] at heq
      obtain ⟨rfl, rfl, rfl, rfl⟩ := heq
      simp [yearPat, hx1, hx2]
    · simp only [List.cons.injEq, and_true] at heq
      obtain ⟨rfl, rfl, rfl, rfl⟩ := heq
      rcases hx1 with rfl | rfl | rfl <;> simp [yearPat, hx2]

/-- A year token is four characters long. -/
theorem yearToken_length (y : List Char) (h : YearToken y) : y.length = 4 := by
  rcases h with ⟨x1, x2, rfl, -, -⟩ | ⟨x1, x2, rfl, -, -⟩ <;> rfl

/-- The year scan, with `prev` the character before the scanned suffix,
succeeds exactly when the suffix decomposes around a boundary-delimited
year token (the left boundary of a match at the very start is judged
against `prev`). -/
theorem rule7Aux_iff (s : List Char) : ∀ (prev : Option Char),
    rule7Aux prev s = true ↔ ∃ p y q, s = p ++ y ++ q ∧ YearToken y
      ∧ ((p = [] ∧ boundaryOK prev = true)
          ∨ ∃ d, p.getLast? = some d ∧ isWordChar d = false)
      ∧ RightBoundary q := by
  induction s with
  | nil =>
    intro prev
    constructor
    · intro h; exact Bool.noConfusion h
    · rintro ⟨p, y, q, heq, hy, -, -⟩
      exfalso
      have hlen := congrArg List.length heq
      rw [List.length_append, List.length_append, yearToken_length y hy] at hlen
      simp at hlen
      omega
  | cons c1 t ih =>
    intro prev
    match t, ih with
    | [], _ =>
      constructor
      · intro h; exact Bool.noConfusion h
      · rintro ⟨p, y, q, heq, hy, -, -⟩
        exfalso
        have hlen := congrArg List.length heq
        rw [List.length_append, List.length_append, yearToken_length y hy] at hlen
        simp at hlen
        omega
    | [c2], _ =>
      constructor
      · intro h; exact Bool.noConfusion h
      · rintro ⟨p, y, q, heq, hy, -, -⟩
        exfalso
        have hlen := congrArg List.length heq
        rw [List.length_append, List.length_append, yearToken_length y hy] at hlen
        simp at hlen
        omega
    | [c2, c3], _ =>
      constructor
      · intro h; exact Bool.noConfusion h
      · rintro ⟨p, y, q, heq, hy, -, -⟩
        exfalso
        have hlen := congrArg List.length heq
        rw [List.length_append, List.length_append, yearToken_length y hy] at hlen
        simp at hlen
        omega
    | c2 :: c3 :: c4 :: rest, ih =>
      constructor
      · intro h
        have h' : ((boundaryOK prev && yearPat c1 c2 c3 c4 && boundaryOK rest.head?)
            || rule7Aux (some c1) (c2 :: c3 :: c4 :: rest)) = true := h
        rw [Bool.or_eq_true] at h'
        rcases h' with hhead | htail
        · simp only [Bool.and_eq_true] at hhead
          obtain ⟨⟨hb, hy⟩, hr⟩ := hhead
          exact ⟨[], [c1, c2, c3, c4], rest, rfl, (yearPat_iff c1 c2 c3 c4).mp hy,
            Or.inl ⟨rfl, hb⟩, (rightBoundary_iff rest).mpr hr⟩
        · obtain ⟨p', y, q, heq, hy, hb, hr⟩ := (ih (some c1)).mp htail
          refine ⟨c1 :: p', y, q, congrArg (c1 :: ·) heq, hy, ?_, hr⟩
          rcases hb with ⟨rfl, hbc⟩ | ⟨d, hd, hw⟩
          · exact Or.inr ⟨c1, by simp,
              by simpa [boundaryOK, Bool.not_eq_true'] using hbc⟩
          · cases p' with
            | nil => exact absurd hd (by simp)
            | cons x xs =>
              exact Or.inr ⟨d, by rw [List.getLast?_cons_cons]; exact hd, hw⟩
      · rintro ⟨p, y, q, heq, hy, hb, hr⟩
        show ((boundaryOK prev && yearPat c1 c2 c3 c4 && boundaryOK rest.head?)
            || rule7Aux (some c1) (c2 :: c3 :: c4 :: rest)) = true
        rw [Bool.or_eq_true]
        cases p with
        | nil =>
          left
          have hbp : boundaryOK prev = true := by
            rcases hb with ⟨-, hbp⟩ | ⟨d, hd, -⟩
            · exact hbp
            · exact absurd hd (by simp)
          rcases hy with ⟨x1, x2, hyx, hx1, hx2⟩ | ⟨x1, x2, hyx, hx1, hx2⟩
          · subst hyx
            simp only [List.nil_append, List.cons_append, List.cons.injEq] at heq
            obtain ⟨rfl, rfl, rfl, rfl, rfl⟩ := heq
            simp only [Bool.and_eq_true]
            exact ⟨⟨hbp, by simp [yearPat, hx1, hx2]⟩, (rightBoundary_iff _).mp hr⟩
          · subst hyx
            simp only [List.nil_append, List.cons_append, List.cons.injEq] at heq
            obtain ⟨rfl, rfl, rfl, rfl, rfl⟩ := heq
            simp only [Bool.and_eq_true]
            refine ⟨⟨hbp, ?_⟩, (rightBoundary_iff _).mp hr⟩
            rcases hx1 with rfl | rfl | rfl <;> simp [yearPat, hx2]
        | cons pc pt =>
          right
          simp only [List.cons_append, List.cons.injEq] at heq
          obtain ⟨rfl, heqt⟩ := heq
          refine (ih (some c1)).mpr ⟨pt, y, q, heqt, hy, ?_, hr⟩
          rcases hb with ⟨habs, -⟩ | ⟨d, hd, hw⟩
          · exact absurd habs (by simp)
          · cases pt with
            | nil =>
              have hdc : d = c1 := by
                rw [List.getLast?_singleton] at hd
                exact (Option.some.inj hd).symm
              subst hdc
              exact Or.inl ⟨rfl, by simp [boundaryOK, hw]⟩
            | cons x xs =>
              rw [List.getLast?_cons_cons] at hd
              exact Or.inr ⟨d, hd, hw⟩

/-- C7: rule 7 holds exactly when the input contains a boundary-delimited
(whole-word) 4-digit token of the form `19xx` (any digits `xx`) or `20xx`
with `xx` between 00 and 29 — the years 1900-1999 and 2000-2029 and no
other 4-digit token. -/
theorem C7_year_token (s : List Char) :
    rule7Valid s = true ↔ ∃ p y q, s = p ++ y ++ q ∧ YearToken y
      ∧ LeftBoundary p ∧ RightBoundary q := by
  rw [rule7Valid, rule7Aux_iff s none]
  constructor
  · rintro ⟨p, y, q, heq, hy, hb, hr⟩
    refine ⟨p, y, q, heq, hy, ?_, hr⟩
    rcases hb with ⟨rfl, -⟩ | ⟨d, hd, hw⟩
    · exact Or.inl rfl
    · exact Or.inr ⟨d, hd, hw⟩
  · rintro ⟨p, y, q, heq, hy, hb, hr⟩
    refine ⟨p, y, q, heq, hy, ?_, hr⟩
    rcases hb with rfl | ⟨d, hd, hw⟩
    · exact Or.inl ⟨rfl, rfl⟩
    · exact Or.inr ⟨d, hd, hw⟩

end PasswordGame
